import Mathlib

/-!
Verification of the deadline-notification core of the `asobi-bot` repository.

The development shallowly embeds the pure core of the program:
`filter_entries` and `format_message` (with its inner helpers
`merge_by_prefix` and `build_lines`) from `src/notifications.py`, and the
deadline grouping performed by `send_entries_by_deadline` in `src/main.py`.
Python strings are modelled by `String` (character-counted, as Python's
`len`), Python lists by `List`, `datetime` by a record of calendar fields
plus a time-of-day component, and the insertion-ordered `defaultdict`
grouping by an explicit association-list fold.
-/

set_option maxRecDepth 20000

/-- Calendar date: the value of Python's `datetime.date()`. -/
structure Date where
  year : Nat
  month : Nat
  day : Nat
deriving DecidableEq, Repr

/-- Timezone-naive model of Python's `datetime`: calendar fields plus a
time-of-day component (seconds).  Only the calendar fields take part in
grouping and day arithmetic, mirroring `.date()`. -/
structure DateTime where
  year : Nat
  month : Nat
  day : Nat
  secondsOfDay : Nat
deriving DecidableEq, Repr

/-- Python's `datetime.date()`: discard the time-of-day component. -/
def DateTime.date (dt : DateTime) : Date :=
  ⟨dt.year, dt.month, dt.day⟩

/-- Days since 1970-01-01 of a proleptic Gregorian civil date (the classic
days-from-civil computation); Python `date` subtraction differences agree
with differences of this ordinal. -/
def daysFromCivil (y m d : Int) : Int :=
  let y2 := if m ≤ 2 then y - 1 else y
  let era := (if 0 ≤ y2 then y2 else y2 - 399) / 400
  let yoe := y2 - era * 400
  let mp := (m + 9) % 12
  let doy := (153 * mp + 2) / 5 + d - 1
  let doe := yoe * 365 + yoe / 4 - yoe / 100 + doy
  era * 146097 + doe - 719468

/-- Ordinal day number of a `Date`. -/
def Date.toOrdinal (d : Date) : Int :=
  daysFromCivil (Int.ofNat d.year) (Int.ofNat d.month) (Int.ofNat d.day)

/-- Python's `(a - b).days` on `date` values. -/
def dateDiffDays (a b : Date) : Int :=
  Date.toOrdinal a - Date.toOrdinal b

/-- Zero-pad the decimal rendering of `n` to `width` characters. -/
def padNum (width n : Nat) : String :=
  let s := toString n
  if s.length < width then String.mk (List.replicate (width - s.length) '0') ++ s else s

/-- Python's `strftime("%Y-%m-%d")` on a date. -/
def formatYMD (d : Date) : String :=
  padNum 4 d.year ++ "-" ++ padNum 2 d.month ++ "-" ++ padNum 2 d.day

/-- `strftime("%Y-%m-%d")` of a `datetime` formats its calendar date. -/
def DateTime.strftimeYMD (dt : DateTime) : String :=
  formatYMD dt.date

/-- Chronological (lexicographic) order on dates, as Python compares
`date` values. -/
def Date.le (a b : Date) : Prop :=
  a.year < b.year ∨ (a.year = b.year ∧
    (a.month < b.month ∨ (a.month = b.month ∧ a.day ≤ b.day)))

/-- Strict chronological order on dates. -/
def Date.lt (a b : Date) : Prop :=
  a.year < b.year ∨ (a.year = b.year ∧
    (a.month < b.month ∨ (a.month = b.month ∧ a.day < b.day)))

instance (a b : Date) : Decidable (Date.le a b) := by
  unfold Date.le; exact inferInstance

instance (a b : Date) : Decidable (Date.lt a b) := by
  unfold Date.lt; exact inferInstance

/-- The data model of `src/models.py`: a titled, linked item with a
deadline (`DeadlineEntry` dataclass). -/
structure DeadlineEntry where
  title : String
  url : String
  deadline : DateTime
deriving DecidableEq, Repr

/-- Python string slicing `s[:n]`: the first `n` characters. -/
def takeChars (s : String) (n : Nat) : String :=
  ⟨s.data.take n⟩

/-- Python's `"\n".join(lines)`. -/
def joinLines : List String → String
  | [] => ""
  | [x] => x
  | x :: y :: xs => x ++ "\n" ++ joinLines (y :: xs)

/-- Accumulator loop of `filter_entries` (`src/notifications.py` lines
22-28): walk the entries, appending those whose whole-day delta to `now`
is among the alert offsets. -/
def filterGo (alert_days : List Int) (now : DateTime) :
    List DeadlineEntry → List DeadlineEntry → List DeadlineEntry
  | acc, [] => acc
  | acc, e :: rest =>
    if dateDiffDays (DateTime.date e.deadline) (DateTime.date now) ∈ alert_days then
      filterGo alert_days now (acc ++ [e]) rest
    else
      filterGo alert_days now acc rest

/-- `filter_entries` from `src/notifications.py`: keep the entries whose
`(deadline.date() - now.date()).days` lies in `alert_days`. -/
def filter_entries (entries : List DeadlineEntry) (alert_days : List Int)
    (now : DateTime) : List DeadlineEntry :=
  filterGo alert_days now [] entries

section Grouping

variable {α : Type} {K : Type} [DecidableEq K]

/-- One `defaultdict(list)` insertion: append `a` to the association-list
group of key `k`, or add a fresh `(k, [a])` pair at the end.  Python
dictionaries iterate in key-insertion order, so the association list keeps
first-appearance order of the keys. -/
def insGroup (k : K) (a : α) : List (K × List α) → List (K × List α)
  | [] => [(k, [a])]
  | q :: rest => if q.1 = k then (q.1, q.2 ++ [a]) :: rest else q :: insGroup k a rest

/-- The grouping loop `for e in entries: grouped[key(e)].append(e)`. -/
def groupFold (κ : α → K) (l : List α) : List (K × List α) :=
  List.foldl (fun acc a => insGroup (κ a) a acc) [] l

/-- The keys of `l` under `κ` in order of first appearance, without
repetition. -/
def firstKeys (κ : α → K) : List α → List K
  | [] => []
  | a :: l => κ a :: List.filter (fun k => decide (k ≠ κ a)) (firstKeys κ l)

/-- Declarative description of insertion-ordered grouping: one pair per
first-seen key, whose group is the ordered sublist of elements carrying
that key. -/
def groupSpec (κ : α → K) (l : List α) : List (K × List α) :=
  (firstKeys κ l).map (fun k => (k, List.filter (fun a => decide (κ a = k)) l))

end Grouping

/-- The display floor `min_display` of `format_message`
(`src/notifications.py` line 98). -/
def min_display : Nat := 3

/-- Dummy timestamp used only to make unreachable match arms total. -/
def dummyDT : DateTime := ⟨0, 0, 0, 0⟩

/-- The grouping key of `merge_by_prefix`
(`src/notifications.py` line 63): the first `plen` characters of the
title when the title is at least that long, the whole title otherwise. -/
def keyOf (plen : Nat) (e : DeadlineEntry) : String :=
  if e.title.length ≥ plen then takeChars e.title plen else e.title

/-- Collapse one group (`src/notifications.py` lines 66-74): a singleton
group keeps its sole member, a larger group becomes one synthetic row with
title `key ++ "..."` and url/deadline of the group's first member.  The
empty arm is unreachable (groups are built non-empty). -/
def mergeGroup (k : String) : List DeadlineEntry → DeadlineEntry
  | [e] => e
  | [] => ⟨k ++ "...", "", dummyDT⟩
  | e :: _ :: _ => ⟨k ++ "...", e.url, e.deadline⟩

/-- `merge_by_prefix` from `src/notifications.py` lines 50-75: group the
entries by title prefix of length `plen` (insertion order) and collapse
each group. -/
def merge_by_prefix (entries : List DeadlineEntry) (plen : Nat) : List DeadlineEntry :=
  (groupFold (keyOf plen) entries).map (fun p => mergeGroup p.1 p.2)

/-- `max(len(e.title) for e in entries)`; `0` on the (unreachable in
context) empty list. -/
def maxTitleLen : List DeadlineEntry → Nat
  | [] => 0
  | e :: es => max e.title.length (maxTitleLen es)

/-- The descent `for l in range(L, 0, -1)` of `format_message`
(`src/notifications.py` lines 107-110): repeatedly merge by shrinking
title prefix, stopping as soon as the row count fits `cmax`. -/
def mergeLoop (cmax : Nat) : List DeadlineEntry → Nat → List DeadlineEntry
  | rows, 0 => rows
  | rows, l + 1 =>
    let m := merge_by_prefix rows (l + 1)
    if m.length ≤ cmax then m else mergeLoop cmax m l

/-- The compaction branch of one `format_message` loop iteration
(`src/notifications.py` lines 103-113): when the row count exceeds the
cap, run the prefix-merge descent from the longest title length, then
hard-truncate if still over the cap; the boolean is the `omitted` flag. -/
def compactOnce (entries : List DeadlineEntry) (cmax : Nat) : List DeadlineEntry × Bool :=
  if entries.length > cmax then
    let m := mergeLoop cmax entries (maxTitleLen entries)
    (if m.length > cmax then m.take cmax else m, true)
  else (entries, false)

/-- One rendered entry line `f"- [{e.title}]({e.url})"`. -/
def entryLine (e : DeadlineEntry) : String :=
  "- [" ++ e.title ++ "](" ++ e.url ++ ")"

/-- `build_lines` from `src/notifications.py` lines 77-96: header line,
then (for a non-empty row list) the deadline line and one link line per
row, then the omitted marker when rows were dropped. -/
def build_lines (sect omsg : String) (merged_items : List DeadlineEntry)
    (omitted : Bool) : List String :=
  let base : List String :=
    match merged_items with
    | [] => ["**" ++ sect ++ "**"]
    | e0 :: _ =>
      ("**" ++ sect ++ "**") :: ("締切: " ++ DateTime.strftimeYMD e0.deadline) ::
        merged_items.map entryLine
  if omitted then base ++ [omsg] else base

/-- One full iteration body of the cap loop: compact at `cmax`, build the
lines and join them. -/
def capStep (sect omsg : String) (entries : List DeadlineEntry) (cmax : Nat) :
    List DeadlineEntry × Bool × String :=
  ((compactOnce entries cmax).1, (compactOnce entries cmax).2,
    joinLines (build_lines sect omsg (compactOnce entries cmax).1 (compactOnce entries cmax).2))

/-- The `while True` cap loop of `format_message`
(`src/notifications.py` lines 102-118): recompute the compaction from the
full entry list at the current cap; stop when the message fits 2000
characters or the cap has reached the floor, else decrement the cap by 2.
The recursion `c + 2 → c` is exactly the `current_max -= 2` step; caps
`0` and `1` satisfy `current_max <= min_display` and stop
unconditionally. -/
def capLoop (sect omsg : String) (entries : List DeadlineEntry) :
    Nat → List DeadlineEntry × Bool × String
  | c + 2 =>
    if (capStep sect omsg entries (c + 2)).2.2.length ≤ 2000 ∨ c + 2 ≤ min_display then
      capStep sect omsg entries (c + 2)
    else capLoop sect omsg entries c
  | cmax => capStep sect omsg entries cmax

/-- The trailing truncation loop of `format_message`
(`src/notifications.py` lines 119-123), with an explicit iteration count:
while the message overflows and more than `min_display` rows remain, drop
the last row and re-render.  Each pass removes one row, so `fuel` equal to
the row count is enough for the loop condition to decide every exit (at
`fuel = 0` the row list is empty and the condition is false anyway). -/
def truncGo (sect omsg : String) : Nat → List DeadlineEntry → String → String
  | 0, _, msg => msg
  | fuel + 1, merged, msg =>
    if msg.length > 2000 ∧ merged.length > min_display then
      truncGo sect omsg fuel merged.dropLast
        (joinLines (build_lines sect omsg merged.dropLast true))
    else msg

/-- The trailing truncation loop started on the cap-loop result. -/
def truncLoop (sect omsg : String) (merged : List DeadlineEntry) (msg : String) : String :=
  truncGo sect omsg merged.length merged msg

/-- The last-resort fallback of `format_message`
(`src/notifications.py` lines 124-126): replace a still-overflowing
message by the fixed omission notice. -/
def finalize (sect omsg msg : String) : String :=
  if msg.length > 2000 then "**" ++ sect ++ "**\n(省略されています)\n" ++ omsg
  else msg

/-- `format_message` from `src/notifications.py` lines 31-126: cap loop,
then trailing truncation, then the fallback guard. -/
def format_message (sect : String) (entries : List DeadlineEntry)
    (omitted_message : String := "...他にも省略されています...")
    (max_display : Nat := 25) : String :=
  finalize sect omitted_message
    (truncLoop sect omitted_message
      (capLoop sect omitted_message entries max_display).1
      (capLoop sect omitted_message entries max_display).2.2)

/-! Partiality-explicit mirror of `format_message`.  Python's `max()`
raises on an empty sequence and the two `while` loops have no a-priori
bound; the mirror returns `none` in the error case and when an explicit
fuel runs out, so proving it equal to `some (format_message ...)`
establishes that the loops terminate and no exception is raised. -/

/-- `max(len(e.title) for e in entries)` with the Python `ValueError` on
an empty sequence made explicit. -/
def maxTitleLenOpt : List DeadlineEntry → Option Nat
  | [] => none
  | e :: es => some (maxTitleLen (e :: es))

/-- `compactOnce` with the potential empty-`max()` error explicit. -/
def compactOnceOpt (entries : List DeadlineEntry) (cmax : Nat) :
    Option (List DeadlineEntry × Bool) :=
  if entries.length > cmax then
    match maxTitleLenOpt entries with
    | none => none
    | some L =>
      let m := mergeLoop cmax entries L
      some (if m.length > cmax then m.take cmax else m, true)
  else some (entries, false)

/-- The cap loop with explicit fuel: `none` when the fuel is exhausted or
an error occurs in an iteration. -/
def capLoopOpt (sect omsg : String) (entries : List DeadlineEntry) :
    Nat → Nat → Option (List DeadlineEntry × Bool × String)
  | 0, _ => none
  | fuel + 1, cmax =>
    match compactOnceOpt entries cmax with
    | none => none
    | some p =>
      let msg := joinLines (build_lines sect omsg p.1 p.2)
      if msg.length ≤ 2000 ∨ cmax ≤ min_display then some (p.1, p.2, msg)
      else capLoopOpt sect omsg entries fuel (cmax - 2)

/-- The trailing truncation loop with explicit fuel. -/
def truncLoopOpt (sect omsg : String) :
    Nat → List DeadlineEntry → String → Option String
  | 0, _, _ => none
  | fuel + 1, merged, msg =>
    if msg.length > 2000 ∧ merged.length > min_display then
      truncLoopOpt sect omsg fuel merged.dropLast
        (joinLines (build_lines sect omsg merged.dropLast true))
    else some msg

/-- `format_message` with every partiality source explicit, run with fuel
`max_display + 1` for the cap loop (the cap strictly decreases) and the
surviving row count plus one for the truncation loop. -/
def format_messageOpt (sect : String) (entries : List DeadlineEntry)
    (omsg : String) (md : Nat) : Option String :=
  match capLoopOpt sect omsg entries (md + 1) md with
  | none => none
  | some (merged, _, msg) =>
    match truncLoopOpt sect omsg (merged.length + 1) merged msg with
    | none => none
    | some m => some (finalize sect omsg m)

/-! Declarative counterparts written from the specification text, used to
state the refinement claims. -/

/-- Modelled from the spec: grouping key of the compaction procedure —
"group rows by the first `l` characters of each title (titles shorter
than `l` use the whole title as key)". -/
def specKey (l : Nat) (e : DeadlineEntry) : String :=
  if e.title.length < l then e.title else takeChars e.title l

/-- Modelled from the spec: "for each group with more than one member,
replace its members with one synthetic row (`title = key + \x22...\x22`,
`url`/`deadline` taken from the first member encountered, in original
order)"; a single-member group keeps its member. -/
def specSynthRow (k : String) : List DeadlineEntry → DeadlineEntry
  | [e] => e
  | [] => ⟨k ++ "...", "", dummyDT⟩
  | e :: _ :: _ => ⟨k ++ "...", e.url, e.deadline⟩

/-- Modelled from the spec: one merge pass at prefix length `l`, the
groups taken in first-appearance order. -/
def specMergeStep (rows : List DeadlineEntry) (l : Nat) : List DeadlineEntry :=
  (firstKeys (specKey l) rows).map
    (fun k => specSynthRow k (rows.filter (fun e => decide (specKey l e = k))))

/-- Modelled from the spec: "for prefix length `l` from `L` down to `1`
... Stop descending `l` as soon as `count(rows) ≤ currentMax`." -/
def specDescend (cap : Nat) : List DeadlineEntry → Nat → List DeadlineEntry
  | rows, 0 => rows
  | rows, l + 1 =>
    let m := specMergeStep rows (l + 1)
    if m.length ≤ cap then m else specDescend cap m l

/-- Modelled from the spec: the whole compaction step — descend from the
longest title length, and "if even at `l = 1` the merged count still
exceeds `currentMax`, hard-truncate `rows` to its first `currentMax`
members". -/
def specCompact (rows : List DeadlineEntry) (cap : Nat) : List DeadlineEntry × Bool :=
  if rows.length > cap then
    let m := specDescend cap rows (maxTitleLen rows)
    (if m.length > cap then m.take cap else m, true)
  else (rows, false)

/-- Modelled from the spec: the naive render of C7 — "header, date line,
one link line per entry", no omission marker. -/
def naiveLines (sect : String) (entries : List DeadlineEntry) : List String :=
  ("**" ++ sect ++ "**") ::
    (match entries with
     | [] => []
     | e0 :: _ =>
       ("締切: " ++ DateTime.strftimeYMD e0.deadline) ::
         entries.map (fun e => "- [" ++ e.title ++ "](" ++ e.url ++ ")"))

/-! The per-deadline grouping of `send_entries_by_deadline`
(`src/main.py` lines 309-316). -/

/-- The `defaultdict` grouping loop of `send_entries_by_deadline`. -/
def groupPairs (entries : List DeadlineEntry) : List (Date × List DeadlineEntry) :=
  groupFold (fun e => DateTime.date e.deadline) entries

/-- Comparison of the grouped pairs by their deadline date, the key order
of `sorted(by_deadline.keys())`. -/
def pairLe (p q : Date × List DeadlineEntry) : Prop :=
  Date.le p.1 q.1

instance : DecidableRel pairLe :=
  fun p q => inferInstanceAs (Decidable (Date.le p.1 q.1))

/-- The grouping performed by `send_entries_by_deadline` in
`src/main.py` lines 311-316: bucket the entries by `deadline.date()` in
insertion order, then emit the buckets in ascending date order. -/
def group_by_deadline (entries : List DeadlineEntry) : List (Date × List DeadlineEntry) :=
  List.insertionSort pairLe (groupPairs entries)

instance : IsTotal (Date × List DeadlineEntry) pairLe :=
  ⟨by intro p q; unfold pairLe Date.le; omega⟩

instance : IsTrans (Date × List DeadlineEntry) pairLe :=
  ⟨by intro p q r h1 h2; unfold pairLe Date.le at h1 h2 ⊢; omega⟩

/-! Concrete inputs used by witnesses and counterexamples. -/

/-- A 2000-character section heading. -/
def secBig : String := String.mk (List.replicate 2000 'a')

/-- A 3000-character section heading. -/
def secBig2 : String := String.mk (List.replicate 3000 'b')

/-- A 600-character url. -/
def urlLong : String := String.mk (List.replicate 600 'u')

/-- A sample timestamp (2025-01-10, midnight). -/
def dtSample : DateTime := ⟨2025, 1, 10, 0⟩

/-- Five entries with distinct one-character titles and very long urls:
prefix merging cannot shrink the list, and even four rendered rows
overflow the 2000-character budget. -/
def entsWide : List DeadlineEntry :=
  [⟨"A", urlLong, dtSample⟩, ⟨"B", urlLong, dtSample⟩, ⟨"C", urlLong, dtSample⟩,
   ⟨"D", urlLong, dtSample⟩, ⟨"E", urlLong, dtSample⟩]

/-- Two short entries sharing the sample deadline. -/
def entsTwo : List DeadlineEntry :=
  [⟨"Ticket Alpha", "u1", dtSample⟩, ⟨"Ticket Beta", "u2", dtSample⟩]

/-! Helper lemmas. -/

theorem length_fallback (sect omsg : String) :
    ("**" ++ sect ++ "**\n(省略されています)\n" ++ omsg).length =
      sect.length + omsg.length + 16 := by
  have h1 : ("**" : String).length = 2 := rfl
  have h2 : ("**\n(省略されています)\n" : String).length = 14 := rfl
  simp [String.length_append, h1, h2]
  omega

theorem finalize_length_le (sect omsg : String)
    (h : sect.length + omsg.length + 16 ≤ 2000) (msg : String) :
    (finalize sect omsg msg).length ≤ 2000 := by
  unfold finalize
  split
  · rw [length_fallback]; exact h
  · omega

theorem filterGo_eq (alert_days : List Int) (now : DateTime)
    (l acc : List DeadlineEntry) :
    filterGo alert_days now acc l =
      acc ++ l.filter (fun e =>
        decide (dateDiffDays (DateTime.date e.deadline) (DateTime.date now) ∈ alert_days)) := by
  induction l generalizing acc with
  | nil => simp [filterGo]
  | cons e rest ih =>
    unfold filterGo
    split
    · next hmem => simp [ih, List.filter_cons, hmem]
    · next hmem => simp [ih, List.filter_cons, hmem]

theorem filter_entries_eq (entries : List DeadlineEntry) (alert_days : List Int)
    (now : DateTime) :
    filter_entries entries alert_days now =
      entries.filter (fun e =>
        decide (dateDiffDays (DateTime.date e.deadline) (DateTime.date now) ∈ alert_days)) := by
  unfold filter_entries
  simpa using filterGo_eq alert_days now entries []

theorem compactOnceOpt_eq (entries : List DeadlineEntry) (cmax : Nat) :
    compactOnceOpt entries cmax = some (compactOnce entries cmax) := by
  cases entries with
  | nil => simp [compactOnceOpt, compactOnce]
  | cons e es =>
    unfold compactOnceOpt compactOnce maxTitleLenOpt
    split
    · rfl
    · rfl

theorem capLoopOpt_eq (sect omsg : String) (entries : List DeadlineEntry) :
    ∀ fuel cmax, cmax < 2 * fuel →
      capLoopOpt sect omsg entries fuel cmax = some (capLoop sect omsg entries cmax) := by
  intro fuel
  induction fuel with
  | zero => intro cmax h; omega
  | succ fuel ih =>
    intro cmax h
    simp only [capLoopOpt, compactOnceOpt_eq]
    rcases cmax with _ | _ | c
    · have h0 : (0 : Nat) ≤ 3 := by omega
      simp [capLoop, capStep, min_display, h0]
    · have h1 : (1 : Nat) ≤ 3 := by omega
      simp [capLoop, capStep, min_display, h1]
    · simp only [capLoop, capStep]
      split
      · rfl
      · have hc : c + 1 + 1 - 2 = c := by omega
        rw [hc]
        exact ih c (by omega)

theorem truncLoopOpt_eq (sect omsg : String) :
    ∀ fuel2 fuel1 (merged : List DeadlineEntry) (msg : String),
      merged.length ≤ fuel1 → merged.length < fuel2 →
      truncLoopOpt sect omsg fuel2 merged msg =
        some (truncGo sect omsg fuel1 merged msg) := by
  intro fuel2
  induction fuel2 with
  | zero => intro fuel1 merged msg _ h2; omega
  | succ fuel2 ih =>
    intro fuel1 merged msg h1 h2
    simp only [truncLoopOpt]
    split
    · next hcond =>
      rcases fuel1 with _ | f1
      · exfalso
        have h3 := hcond.2
        unfold min_display at h3
        omega
      · simp only [truncGo]
        rw [if_pos hcond]
        have hlen := List.length_dropLast merged
        have h3 := hcond.2
        unfold min_display at h3
        exact ih f1 merged.dropLast _ (by omega) (by omega)
    · next hcond =>
      rcases fuel1 with _ | f1
      · simp [truncGo]
      · simp only [truncGo]
        rw [if_neg hcond]

theorem capStep_nil (sect omsg : String) (cmax : Nat) :
    capStep sect omsg [] cmax = ([], false, "**" ++ sect ++ "**") := by
  simp [capStep, compactOnce, build_lines, joinLines]

theorem capLoop_nil (sect omsg : String) :
    ∀ cmax, capLoop sect omsg [] cmax = ([], false, "**" ++ sect ++ "**") := by
  intro cmax
  induction cmax using Nat.strong_induction_on with
  | _ cmax ih =>
    rcases cmax with _ | _ | c
    · simp [capLoop, capStep_nil]
    · simp [capLoop, capStep_nil]
    · simp only [capLoop, capStep_nil]
      split
      · rfl
      · exact ih c (by omega)

theorem format_message_nil (sect omsg : String) (md : Nat) :
    format_message sect [] omsg md = finalize sect omsg ("**" ++ sect ++ "**") := by
  unfold format_message
  rw [capLoop_nil]
  rfl

theorem length_of_header (sect : String) :
    ("**" ++ sect ++ "**").length = sect.length + 4 := by
  have h2 : ("**" : String).length = 2 := rfl
  simp [String.length_append, h2]
  omega

/-! Claim theorems. -/

/-- Claim C1 counterexample: with a 2000-character section heading, an
empty entry list and an empty omitted suffix, `format_message` falls
through to its fixed fallback text, whose length 2016 exceeds the budget
of 2000 — so the budget does not hold for every section/suffix. -/
theorem budget_counterexample :
    ¬ ((format_message secBig [] "" 25).length ≤ 2000) := by
  have hsec : secBig.length = 2000 := by
    unfold secBig
    rw [String.length_mk, List.length_replicate]
  rw [format_message_nil]
  unfold finalize
  rw [if_pos (by rw [length_of_header]; omega)]
  rw [length_fallback]
  have h0 : ("" : String).length = 0 := rfl
  omega

/-- Claim C1 (amended): whenever the fallback text itself fits the
budget — `section.length + omittedSuffix.length + 16 ≤ 2000` — the string
returned by `format_message` has length at most 2000, for every entries
list and display cap. -/
theorem format_message_budget (sect : String) (entries : List DeadlineEntry)
    (omsg : String) (md : Nat) (h : sect.length + omsg.length + 16 ≤ 2000) :
    (format_message sect entries omsg md).length ≤ 2000 := by
  unfold format_message
  exact finalize_length_le sect omsg h _

/-- Witness for the amended C1 at a concrete input. -/
theorem format_message_budget_witness :
    ("A" : String).length + ("" : String).length + 16 ≤ 2000 ∧
      (format_message "A" [] "" 25).length ≤ 2000 :=
  ⟨by decide, format_message_budget "A" [] "" 25 (by decide)⟩

/-- Claim C2: `format_message` is total over well-typed input — the
partiality-explicit mirror, which returns `none` if any loop ran out of
its fuel bound or Python's `max()` hit an empty sequence, always returns
`some` of the value of the loop embedding, for every input.  The cap
loop, the prefix descent and the trailing truncation loop therefore all
terminate and no error is raised. -/
theorem format_message_total (sect : String) (entries : List DeadlineEntry)
    (omsg : String) (md : Nat) :
    format_messageOpt sect entries omsg md = some (format_message sect entries omsg md) := by
  unfold format_messageOpt format_message truncLoop
  rw [capLoopOpt_eq sect omsg entries (md + 1) md (by omega)]
  rcases hc : capLoop sect omsg entries md with ⟨merged, om, msg⟩
  dsimp only
  rw [truncLoopOpt_eq sect omsg (merged.length + 1) merged.length merged msg
    (Nat.le_refl _) (by omega)]

/-- Claim C3: an entry is in the output of `filter_entries` iff it is an
input entry whose whole-day delta is in the alert set, and the output is
a sublist of the input (order preserved, no duplication). -/
theorem filter_entries_spec (entries : List DeadlineEntry) (alert_days : List Int)
    (now : DateTime) :
    (∀ e, e ∈ filter_entries entries alert_days now ↔
        e ∈ entries ∧
          dateDiffDays (DateTime.date e.deadline) (DateTime.date now) ∈ alert_days)
    ∧ List.Sublist (filter_entries entries alert_days now) entries := by
  rw [filter_entries_eq]
  refine ⟨fun e => ?_, List.filter_sublist entries⟩
  simp [List.mem_filter]

/-- Claim C8: `format_message` is deterministic — two calls on equal
arguments return equal strings; the result depends on nothing but the
arguments. -/
theorem format_message_deterministic (s1 s2 o1 o2 : String)
    (e1 e2 : List DeadlineEntry) (m1 m2 : Nat)
    (hs : s1 = s2) (he : e1 = e2) (ho : o1 = o2) (hm : m1 = m2) :
    format_message s1 e1 o1 m1 = format_message s2 e2 o2 m2 := by
  subst hs; subst he; subst ho; subst hm; rfl

/-- Witness for C8 at a concrete input. -/
theorem format_message_deterministic_witness :
    ("S" : String) = "S" ∧
      format_message "S" entsTwo "x" 25 = format_message "S" entsTwo "x" 25 :=
  ⟨rfl, format_message_deterministic "S" "S" "x" "x" entsTwo entsTwo 25 25 rfl rfl rfl rfl⟩

/-- Claim C6 counterexample: with a 3000-character section heading the
call on an empty entries list does not return the bare header — the
header alone already overflows the budget, so the fallback text (which
ends in the omitted suffix) is returned instead. -/
theorem header_counterexample :
    ¬ (format_message secBig2 [] "Z" 25 = "**" ++ secBig2 ++ "**") := by
  have hsec : secBig2.length = 3000 := by
    unfold secBig2
    rw [String.length_mk, List.length_replicate]
  intro heq
  have hlen := congrArg String.length heq
  rw [format_message_nil] at hlen
  unfold finalize at hlen
  rw [if_pos (by rw [length_of_header]; omega)] at hlen
  rw [length_fallback, length_of_header] at hlen
  have h1 : ("Z" : String).length = 1 := rfl
  omega

/-- Claim C6 (amended): when the header line fits the budget
(`section.length + 4 ≤ 2000`), `format_message` on an empty entries list
returns exactly the header line `**{section}**` — no date line, no
omission marker — for every omitted suffix and display cap. -/
theorem empty_entries_header (sect omsg : String) (md : Nat)
    (h : sect.length + 4 ≤ 2000) :
    format_message sect [] omsg md = "**" ++ sect ++ "**" := by
  rw [format_message_nil]
  unfold finalize
  rw [if_neg (by rw [length_of_header]; omega)]

/-- Witness for the amended C6 at a concrete input. -/
theorem empty_entries_header_witness :
    ("T" : String).length + 4 ≤ 2000 ∧
      format_message "T" [] "O" 7 = "**" ++ "T" ++ "**" :=
  ⟨by decide, empty_entries_header "T" "O" 7 (by decide)⟩

theorem capLoop_stops (sect omsg : String) (entries : List DeadlineEntry) (cmax : Nat)
    (h : (capStep sect omsg entries cmax).2.2.length ≤ 2000) :
    capLoop sect omsg entries cmax = capStep sect omsg entries cmax := by
  rcases cmax with _ | _ | c
  · simp [capLoop]
  · simp [capLoop]
  · simp only [capLoop]
    rw [if_pos (Or.inl h)]

theorem truncGo_noop (sect omsg : String) (fuel : Nat) (merged : List DeadlineEntry)
    (msg : String) (h : msg.length ≤ 2000) :
    truncGo sect omsg fuel merged msg = msg := by
  cases fuel
  · rfl
  · simp only [truncGo]
    rw [if_neg (fun hcon => Nat.not_lt.mpr h hcon.1)]

theorem compactOnce_noop (entries : List DeadlineEntry) (cmax : Nat)
    (h : entries.length ≤ cmax) :
    compactOnce entries cmax = (entries, false) := by
  unfold compactOnce
  rw [if_neg (by omega)]

theorem build_lines_false_eq (sect omsg : String) (entries : List DeadlineEntry) :
    build_lines sect omsg entries false = naiveLines sect entries := by
  cases entries <;> rfl

/-- Claim C7: when the entry count is within `maxDisplay` and the naive
render (header, date line, one link line per entry, no omission marker)
already fits the budget, `format_message` returns exactly that naive
render — one line per entry, in input order, no omission marker. -/
theorem noop_compaction (sect omsg : String) (entries : List DeadlineEntry) (md : Nat)
    (hcount : entries.length ≤ md)
    (hfit : (joinLines (naiveLines sect entries)).length ≤ 2000) :
    format_message sect entries omsg md = joinLines (naiveLines sect entries) := by
  have hb : build_lines sect omsg entries false = naiveLines sect entries :=
    build_lines_false_eq sect omsg entries
  have hco : compactOnce entries md = (entries, false) := compactOnce_noop entries md hcount
  have hstep : capStep sect omsg entries md = (entries, false, joinLines (naiveLines sect entries)) := by
    unfold capStep
    rw [hco]
    dsimp only
    rw [hb]
  have hcap := capLoop_stops sect omsg entries md (by rw [hstep]; exact hfit)
  unfold format_message
  rw [hcap, hstep]
  dsimp only
  unfold truncLoop
  rw [truncGo_noop sect omsg entries.length entries _ hfit]
  unfold finalize
  rw [if_neg (by omega)]

/-- Witness for C7 at a concrete two-entry input. -/
theorem noop_compaction_witness :
    entsTwo.length ≤ 25 ∧
      (joinLines (naiveLines "S" entsTwo)).length ≤ 2000 ∧
      format_message "S" entsTwo "x" 25 = joinLines (naiveLines "S" entsTwo) :=
  ⟨by decide, by decide, noop_compaction "S" "x" entsTwo 25 (by decide) (by decide)⟩

section GroupingLemmas

variable {α : Type} {K : Type} [DecidableEq K]

theorem mem_firstKeys (κ : α → K) (l : List α) (k : K) :
    k ∈ firstKeys κ l ↔ ∃ a, a ∈ l ∧ κ a = k := by
  induction l with
  | nil => simp [firstKeys]
  | cons a l ih =>
    simp only [firstKeys]
    constructor
    · intro h
      rcases List.mem_cons.1 h with h1 | h1
      · exact ⟨a, List.mem_cons_self a l, h1.symm⟩
      · rcases ih.1 (List.mem_filter.1 h1).1 with ⟨b, hb, hkb⟩
        exact ⟨b, List.mem_cons_of_mem a hb, hkb⟩
    · rintro ⟨b, hb, hkb⟩
      by_cases hk : k = κ a
      · exact List.mem_cons.2 (Or.inl hk)
      · rcases List.mem_cons.1 hb with rfl | hbl
        · exact absurd hkb.symm hk
        · refine List.mem_cons.2 (Or.inr (List.mem_filter.2 ⟨ih.2 ⟨b, hbl, hkb⟩, ?_⟩))
          simp [hk]

theorem nodup_firstKeys (κ : α → K) (l : List α) : (firstKeys κ l).Nodup := by
  induction l with
  | nil => simp [firstKeys]
  | cons a l ih =>
    simp only [firstKeys]
    rw [List.nodup_cons]
    refine ⟨?_, List.Nodup.filter _ ih⟩
    intro hmem
    have h2 := (List.mem_filter.1 hmem).2
    simp at h2

theorem firstKeys_append (κ : α → K) (l : List α) (a : α) :
    firstKeys κ (l ++ [a]) =
      if κ a ∈ firstKeys κ l then firstKeys κ l else firstKeys κ l ++ [κ a] := by
  induction l with
  | nil => simp [firstKeys]
  | cons b l ih =>
    by_cases hmem : κ a ∈ firstKeys κ l
    · have hmem2 : κ a ∈ firstKeys κ (b :: l) := by
        by_cases hab : κ a = κ b
        · simp only [firstKeys, List.mem_cons]
          exact Or.inl hab
        · simp only [firstKeys, List.mem_cons, List.mem_filter]
          exact Or.inr ⟨hmem, by simp [hab]⟩
      rw [if_pos hmem2]
      show firstKeys κ (b :: (l ++ [a])) = firstKeys κ (b :: l)
      simp only [firstKeys, ih, if_pos hmem]
    · by_cases hab : κ a = κ b
      · have hmem2 : κ a ∈ firstKeys κ (b :: l) := by
          simp only [firstKeys, List.mem_cons]
          exact Or.inl hab
        rw [if_pos hmem2]
        show firstKeys κ (b :: (l ++ [a])) = firstKeys κ (b :: l)
        simp only [firstKeys, ih, if_neg hmem]
        rw [List.filter_append]
        simp [hab]
      · have hmem2 : κ a ∉ firstKeys κ (b :: l) := by
          simp only [firstKeys, List.mem_cons, List.mem_filter]
          rintro (h | ⟨h1, h2⟩)
          · exact hab h
          · exact hmem h1
        rw [if_neg hmem2]
        show firstKeys κ (b :: (l ++ [a])) = firstKeys κ (b :: l) ++ [κ a]
        simp only [firstKeys, ih, if_neg hmem]
        rw [List.filter_append]
        simp [hab]

theorem insGroup_map_of_mem (k : K) (a : α) (f : K → List α) :
    ∀ ks : List K, ks.Nodup → k ∈ ks →
      insGroup k a (ks.map (fun k2 => (k2, f k2))) =
        ks.map (fun k2 => (k2, if k2 = k then f k2 ++ [a] else f k2)) := by
  intro ks
  induction ks with
  | nil =>
    intro _ h
    simp at h
  | cons k1 ks ih =>
    intro hnd hmem
    simp only [List.map_cons, insGroup]
    by_cases h1 : k1 = k
    · rw [if_pos h1]
      subst h1
      simp only [if_pos rfl]
      congr 1
      apply List.map_congr_left
      intro k2 hk2
      have hne : k2 ≠ k1 := fun he => (List.nodup_cons.1 hnd).1 (he ▸ hk2)
      simp [hne]
    · rw [if_neg h1]
      have hmem2 : k ∈ ks := by
        rcases List.mem_cons.1 hmem with h | h
        · exact absurd h.symm h1
        · exact h
      rw [ih (List.nodup_cons.1 hnd).2 hmem2]
      simp [h1]

theorem insGroup_map_of_not_mem (k : K) (a : α) (f : K → List α) :
    ∀ ks : List K, k ∉ ks →
      insGroup k a (ks.map (fun k2 => (k2, f k2))) =
        ks.map (fun k2 => (k2, f k2)) ++ [(k, [a])] := by
  intro ks
  induction ks with
  | nil =>
    intro _
    rfl
  | cons k1 ks ih =>
    intro hmem
    simp only [List.map_cons, insGroup]
    have h1 : k1 ≠ k := fun he => hmem (List.mem_cons.2 (Or.inl he.symm))
    rw [if_neg h1]
    rw [ih (fun h => hmem (List.mem_cons_of_mem _ h))]
    simp [List.cons_append]

theorem groupFold_eq_groupSpec (κ : α → K) (l : List α) :
    groupFold κ l = groupSpec κ l := by
  induction l using List.reverseRecOn with
  | nil => rfl
  | append_singleton l a ih =>
    have hfold : groupFold κ (l ++ [a]) = insGroup (κ a) a (groupFold κ l) := by
      simp [groupFold, List.foldl_append]
    rw [hfold, ih]
    unfold groupSpec
    rw [firstKeys_append]
    by_cases hmem : κ a ∈ firstKeys κ l
    · rw [if_pos hmem]
      rw [insGroup_map_of_mem (κ a) a _ (firstKeys κ l) (nodup_firstKeys κ l) hmem]
      apply List.map_congr_left
      intro k hk
      rw [List.filter_append]
      by_cases hka : k = κ a
      · subst hka
        simp [List.filter_cons]
      · have hak : κ a ≠ k := fun he => hka he.symm
        simp [List.filter_cons, hak, hka]
    · rw [if_neg hmem]
      rw [insGroup_map_of_not_mem (κ a) a _ (firstKeys κ l) hmem]
      rw [List.map_append]
      congr 1
      · apply List.map_congr_left
        intro k hk
        have hak : κ a ≠ k := fun he => hmem (by rw [he]; exact hk)
        rw [List.filter_append]
        simp [List.filter_cons, hak]
      · have hnil : l.filter (fun b => decide (κ b = κ a)) = [] := by
          rw [List.filter_eq_nil_iff]
          intro b hb
          simp only [decide_eq_true_eq]
          intro hbe
          exact hmem ((mem_firstKeys κ l (κ a)).2 ⟨b, hb, hbe⟩)
        simp [List.filter_append, List.filter_cons, hnil]

theorem groupSpec_snd_eq (κ : α → K) (l : List α) (p : K × List α)
    (hp : p ∈ groupSpec κ l) :
    p.2 = l.filter (fun a => decide (κ a = p.1)) := by
  unfold groupSpec at hp
  rcases List.mem_map.1 hp with ⟨k, _, hk⟩
  rw [← hk]

theorem groupSpec_map_fst (κ : α → K) (l : List α) :
    (groupSpec κ l).map Prod.fst = firstKeys κ l := by
  unfold groupSpec
  rw [List.map_map]
  calc (firstKeys κ l).map (Prod.fst ∘ fun k => (k, List.filter (fun a => decide (κ a = k)) l))
      = (firstKeys κ l).map id := List.map_congr_left (fun k _ => rfl)
    _ = firstKeys κ l := List.map_id _

theorem groupSpec_join_perm (κ : α → K) (l : List α) :
    ((groupSpec κ l).map Prod.snd).flatten.Perm l := by
  unfold groupSpec
  rw [List.map_map]
  have hgen : ∀ ks : List K, ks.Nodup → (∀ a ∈ l, κ a ∈ ks) →
      ((ks.map (fun k => l.filter (fun a => decide (κ a = k)))).flatten).Perm l := by
    intro ks
    induction ks generalizing l with
    | nil =>
      intro _ hall
      have : l = [] := by
        rcases l with _ | ⟨b, l⟩
        · rfl
        · exact absurd (hall b (List.mem_cons_self b l)) (by simp)
      simp [this]
    | cons k ks ih =>
      intro hnd hall
      simp only [List.map_cons, List.flatten_cons]
      have hsplit := List.filter_append_perm (fun a => decide (κ a = k)) l
      refine List.Perm.trans ?_ hsplit
      apply List.Perm.append_left
      have hrest : ∀ a ∈ l.filter (fun a => !decide (κ a = k)), κ a ∈ ks := by
        intro a ha
        have h1 := List.mem_filter.1 ha
        have h2 : κ a ≠ k := by
          have := h1.2
          simp at this
          exact this
        rcases List.mem_cons.1 (hall a h1.1) with h | h
        · exact absurd h h2
        · exact h
      have heq : ks.map (fun k2 => l.filter (fun a => decide (κ a = k2))) =
          ks.map (fun k2 => (l.filter (fun a => !decide (κ a = k))).filter
            (fun a => decide (κ a = k2))) := by
        apply List.map_congr_left
        intro k2 hk2
        rw [List.filter_filter]
        apply List.filter_congr
        intro b hb
        have hk2ne : k2 ≠ k := fun he => (List.nodup_cons.1 hnd).1 (he ▸ hk2)
        by_cases hbk : κ b = k2
        · simp [hbk, hk2ne]
        · simp [hbk]
      rw [heq]
      exact ih (l.filter (fun a => !decide (κ a = k))) (List.nodup_cons.1 hnd).2 hrest
  exact hgen (firstKeys κ l) (nodup_firstKeys κ l)
    (fun a ha => (mem_firstKeys κ l (κ a)).2 ⟨a, ha, rfl⟩)

end GroupingLemmas

/-- Claim C9: neither `filter_entries` nor the merge step of
`format_message` invents or alters entry values — every filtered entry is
an input entry unchanged, and every row produced by `merge_by_prefix` is
either an input entry unchanged or a fresh synthetic entry built from the
key of (and the url/deadline fields of) an input entry. -/
theorem no_entry_mutation (entries : List DeadlineEntry) (alert_days : List Int)
    (now : DateTime) (plen : Nat) :
    (∀ e ∈ filter_entries entries alert_days now, e ∈ entries)
    ∧ (∀ e ∈ merge_by_prefix entries plen,
        e ∈ entries ∨ ∃ e2, e2 ∈ entries ∧
          e = ⟨keyOf plen e2 ++ "...", e2.url, e2.deadline⟩) := by
  constructor
  · intro e he
    rw [filter_entries_eq] at he
    exact (List.mem_filter.1 he).1
  · intro e he
    unfold merge_by_prefix at he
    rw [groupFold_eq_groupSpec] at he
    unfold groupSpec at he
    rw [List.map_map] at he
    rcases List.mem_map.1 he with ⟨k, hkmem, hke⟩
    rcases hgrp : entries.filter (fun a => decide (keyOf plen a = k)) with _ | ⟨x, g⟩
    · exfalso
      rcases (mem_firstKeys (keyOf plen) entries k).1 hkmem with ⟨b, hb, hbk⟩
      have hbmem : b ∈ entries.filter (fun a => decide (keyOf plen a = k)) :=
        List.mem_filter.2 ⟨hb, by simp [hbk]⟩
      rw [hgrp] at hbmem
      simp at hbmem
    · have hx : x ∈ entries.filter (fun a => decide (keyOf plen a = k)) := by
        rw [hgrp]
        exact List.mem_cons_self x g
      have hxe : x ∈ entries := (List.mem_filter.1 hx).1
      have hxk : keyOf plen x = k := by
        have h2 := (List.mem_filter.1 hx).2
        simpa using h2
      rcases g with _ | ⟨y, g2⟩
      · left
        simp only [Function.comp] at hke
        rw [hgrp] at hke
        simp only [mergeGroup] at hke
        rw [← hke]
        exact hxe
      · right
        refine ⟨x, hxe, ?_⟩
        simp only [Function.comp] at hke
        rw [hgrp] at hke
        simp only [mergeGroup] at hke
        rw [← hke, hxk]

theorem keyOf_eq_specKey : keyOf = specKey := by
  funext plen e
  unfold keyOf specKey
  rcases Nat.lt_or_ge e.title.length plen with h | h
  · rw [if_neg (by omega), if_pos h]
  · rw [if_pos h, if_neg (by omega)]

theorem mergeGroup_eq_specSynthRow : mergeGroup = specSynthRow := by
  funext k g
  rcases g with _ | ⟨x, _ | ⟨y, g2⟩⟩ <;> rfl

theorem merge_eq_specMergeStep (rows : List DeadlineEntry) (plen : Nat) :
    merge_by_prefix rows plen = specMergeStep rows plen := by
  unfold merge_by_prefix specMergeStep
  rw [groupFold_eq_groupSpec, keyOf_eq_specKey, mergeGroup_eq_specSynthRow]
  unfold groupSpec
  rw [List.map_map]
  rfl

theorem descend_eq (cap : Nat) : ∀ l rows, mergeLoop cap rows l = specDescend cap rows l := by
  intro l
  induction l with
  | zero => intro rows; rfl
  | succ l ih =>
    intro rows
    simp only [mergeLoop, specDescend, merge_eq_specMergeStep]
    split
    · rfl
    · exact ih _

/-- Claim C5: the compaction branch of `format_message` computes exactly
the procedure described by the specification — group by descending title
prefixes (shorter titles keyed by the whole title), collapse multi-member
groups into a synthetic `key ++ "..."` row carrying the first member's
url/deadline, keep first-appearance group order, stop as soon as the
merged count fits the cap, and hard-truncate to the first `cap` rows if
the count still exceeds the cap at prefix length 1. -/
theorem compaction_refinement (rows : List DeadlineEntry) (cap : Nat) :
    compactOnce rows cap = specCompact rows cap := by
  unfold compactOnce specCompact
  rw [descend_eq]

theorem Date.lt_of_le_of_ne (a b : Date) (h : Date.le a b) (hne : a ≠ b) :
    Date.lt a b := by
  rcases a with ⟨y1, m1, d1⟩
  rcases b with ⟨y2, m2, d2⟩
  unfold Date.le at h
  unfold Date.lt
  have hne2 : ¬(y1 = y2 ∧ m1 = m2 ∧ d1 = d2) := by
    intro hcon
    exact hne (by rw [hcon.1, hcon.2.1, hcon.2.2])
  dsimp only at h ⊢
  omega

/-- Claim C4: the grouping of `send_entries_by_deadline` partitions the
filtered entries — every group is the ordered sublist of the entries
sharing its calendar date (time of day ignored), the concatenation of the
groups is a permutation of the input (no loss, no duplication), and the
groups are emitted in strictly ascending date order. -/
theorem deadline_grouping_partition (entries : List DeadlineEntry) :
    (∀ p ∈ group_by_deadline entries,
        p.2 = entries.filter (fun e => decide (DateTime.date e.deadline = p.1)))
    ∧ (((group_by_deadline entries).map Prod.snd).flatten).Perm entries
    ∧ List.Pairwise (fun p q => Date.lt p.1 q.1) (group_by_deadline entries) := by
  have hperm : (group_by_deadline entries).Perm (groupPairs entries) :=
    List.perm_insertionSort pairLe (groupPairs entries)
  have hspec : groupPairs entries = groupSpec (fun e => DateTime.date e.deadline) entries :=
    groupFold_eq_groupSpec _ _
  refine ⟨?_, ?_, ?_⟩
  · intro p hp
    have hp2 : p ∈ groupPairs entries := hperm.mem_iff.1 hp
    rw [hspec] at hp2
    exact groupSpec_snd_eq _ entries p hp2
  · have h1 := (hperm.map Prod.snd).flatten
    refine h1.trans ?_
    rw [hspec]
    exact groupSpec_join_perm _ entries
  · have hsorted : List.Pairwise pairLe (group_by_deadline entries) :=
      List.sorted_insertionSort pairLe (groupPairs entries)
    have hnodup0 : ((groupPairs entries).map Prod.fst).Nodup := by
      rw [hspec, groupSpec_map_fst]
      exact nodup_firstKeys (fun e => DateTime.date e.deadline) entries
    have hnodup : ((group_by_deadline entries).map Prod.fst).Nodup :=
      ((hperm.map Prod.fst).nodup_iff).2 hnodup0
    have hne : List.Pairwise (fun p q : Date × List DeadlineEntry => p.1 ≠ q.1)
        (group_by_deadline entries) := List.pairwise_map.1 hnodup
    have hcomb := List.Pairwise.and hsorted hne
    exact hcomb.imp (fun h => Date.lt_of_le_of_ne _ _ h.1 h.2)

/-- Claim C10: with `maxDisplay = 4` and five entries with distinct
one-character titles and 600-character urls, the renders at caps 4 and 3
would overflow the budget, the cap loop decrements 4 → 2 — below the
floor of 3 — before the stop test takes effect, and the returned message
renders exactly 2 entry rows, fewer than `min_display`. -/
theorem cap_below_floor :
    format_message "S" entsWide "OM" 4 =
      joinLines (build_lines "S" "OM"
        [⟨"A", urlLong, dtSample⟩, ⟨"B", urlLong, dtSample⟩] true)
    ∧ ([⟨"A", urlLong, dtSample⟩, ⟨"B", urlLong, dtSample⟩] : List DeadlineEntry).length
        < min_display := by
  have hu : urlLong.length = 600 := by
    unfold urlLong
    rw [String.length_mk, List.length_replicate]
  have hline : ∀ t : String, t.length = 1 →
      (entryLine ⟨t, urlLong, dtSample⟩).length = 607 := by
    intro t ht
    unfold entryLine
    have h1 : ("- [" : String).length = 3 := rfl
    have h2 : ("](" : String).length = 2 := rfl
    have h3 : (")" : String).length = 1 := rfl
    simp only [String.length_append, h1, h2, h3, ht, hu]
  have hco4 : compactOnce entsWide (2 + 2) =
      ([⟨"A", urlLong, dtSample⟩, ⟨"B", urlLong, dtSample⟩,
        ⟨"C", urlLong, dtSample⟩, ⟨"D", urlLong, dtSample⟩], true) := rfl
  have hco2 : compactOnce entsWide 2 =
      ([⟨"A", urlLong, dtSample⟩, ⟨"B", urlLong, dtSample⟩], true) := rfl
  have hb4 : build_lines "S" "OM"
      [⟨"A", urlLong, dtSample⟩, ⟨"B", urlLong, dtSample⟩,
       ⟨"C", urlLong, dtSample⟩, ⟨"D", urlLong, dtSample⟩] true =
      ("**" ++ "S" ++ "**") :: ("締切: " ++ DateTime.strftimeYMD dtSample) ::
        entryLine ⟨"A", urlLong, dtSample⟩ :: entryLine ⟨"B", urlLong, dtSample⟩ ::
        entryLine ⟨"C", urlLong, dtSample⟩ :: entryLine ⟨"D", urlLong, dtSample⟩ ::
        ["OM"] := rfl
  have hb2 : build_lines "S" "OM"
      [⟨"A", urlLong, dtSample⟩, ⟨"B", urlLong, dtSample⟩] true =
      ("**" ++ "S" ++ "**") :: ("締切: " ++ DateTime.strftimeYMD dtSample) ::
        entryLine ⟨"A", urlLong, dtSample⟩ :: entryLine ⟨"B", urlLong, dtSample⟩ ::
        ["OM"] := rfl
  have hh : ("**" ++ "S" ++ "**").length = 5 := rfl
  have hd : ("締切: " ++ DateTime.strftimeYMD dtSample).length = 14 := rfl
  have hn : ("\n" : String).length = 1 := rfl
  have ho : ("OM" : String).length = 2 := rfl
  have hlen4 : (joinLines (build_lines "S" "OM"
      [⟨"A", urlLong, dtSample⟩, ⟨"B", urlLong, dtSample⟩,
       ⟨"C", urlLong, dtSample⟩, ⟨"D", urlLong, dtSample⟩] true)).length = 2455 := by
    rw [hb4]
    simp only [joinLines]
    simp only [String.length_append, hh, hd, hn, ho,
      hline "A" rfl, hline "B" rfl, hline "C" rfl, hline "D" rfl]
  have hlen2 : (joinLines (build_lines "S" "OM"
      [⟨"A", urlLong, dtSample⟩, ⟨"B", urlLong, dtSample⟩] true)).length = 1239 := by
    rw [hb2]
    simp only [joinLines]
    simp only [String.length_append, hh, hd, hn, ho, hline "A" rfl, hline "B" rfl]
  have hs4 : (capStep "S" "OM" entsWide (2 + 2)).2.2 =
      joinLines (build_lines "S" "OM"
        [⟨"A", urlLong, dtSample⟩, ⟨"B", urlLong, dtSample⟩,
         ⟨"C", urlLong, dtSample⟩, ⟨"D", urlLong, dtSample⟩] true) := by
    unfold capStep
    rw [hco4]
  have hs2 : (capStep "S" "OM" entsWide 2).2.2 =
      joinLines (build_lines "S" "OM"
        [⟨"A", urlLong, dtSample⟩, ⟨"B", urlLong, dtSample⟩] true) := by
    unfold capStep
    rw [hco2]
  have hfst2 : (capStep "S" "OM" entsWide 2).1 =
      [⟨"A", urlLong, dtSample⟩, ⟨"B", urlLong, dtSample⟩] := by
    unfold capStep
    rw [hco2]
  have hcap4 : capLoop "S" "OM" entsWide 4 = capLoop "S" "OM" entsWide 2 := by
    show capLoop "S" "OM" entsWide (2 + 2) = capLoop "S" "OM" entsWide 2
    simp only [capLoop]
    rw [if_neg]
    rintro (hc | hc)
    · rw [hs4, hlen4] at hc
      omega
    · unfold min_display at hc
      omega
  have hcap2 : capLoop "S" "OM" entsWide 2 = capStep "S" "OM" entsWide 2 := by
    apply capLoop_stops
    rw [hs2, hlen2]
    omega
  constructor
  · unfold format_message
    rw [hcap4, hcap2, hfst2, hs2]
    unfold truncLoop
    rw [truncGo_noop _ _ _ _ _ (by rw [hlen2]; omega)]
    unfold finalize
    rw [if_neg (by rw [hlen2]; omega)]
  · simp [min_display]
